import Mathlib

/-!
Verification of `bin/scrape_software_versions.py` (nf-core/hlatyping).

The script is embedded shallowly:
* File contents are `String`s; the working directory is a function
  `String → Option String` (`none` models a missing file, which makes
  Python's `open` raise `FileNotFoundError`; the whole run is therefore
  `Except String _`, the error carrying the missing filename).
* Every regex in the script's table has the shape `literal(\S+)`:
  a literal prefix followed by one greedy capture group of non-whitespace
  characters, with nothing after it.  `re.search` on such a pattern finds
  the leftmost position where the literal occurs immediately followed by a
  non-whitespace character, and group 1 is the maximal run of
  non-whitespace characters from there.  `reSearch` below implements
  exactly that scan over the character list.  Whitespace is modelled as
  Python's ASCII `\s` class (space, tab, newline, carriage return,
  vertical tab, form feed).
* The `OrderedDict` is an association list in insertion order; assignment
  to an existing key keeps its position, assignment to a fresh key appends.
-/

/-- Python ASCII whitespace class `\s`: the characters a `\S` atom refuses. -/
def isPySpace (c : Char) : Bool :=
  c = ' ' || c = '\t' || c = '\n' || c = '\r' || c = '\x0b' || c = '\x0c'

/-- Greedy `\S+` continuation: the maximal leading run of non-whitespace. -/
def takeNonSpace : List Char → List Char
  | [] => []
  | c :: cs => if isPySpace c then [] else c :: takeNonSpace cs

/-- Strip a literal pattern piece from the front of the subject, if present. -/
def stripLit : List Char → List Char → Option (List Char)
  | [], s => some s
  | _ :: _, [] => none
  | p :: ps, c :: cs => if c = p then stripLit ps cs else none

/-- Try to match `literal(\S+)` anchored at the current position; on success
return capture group 1 (the maximal non-whitespace run after the literal). -/
def matchHere (pre s : List Char) : Option (List Char) :=
  match stripLit pre s with
  | none => none
  | some rest =>
    match rest with
    | [] => none
    | c :: cs => if isPySpace c then none else some (c :: takeNonSpace cs)

/-- Model of `re.search` for a `literal(\S+)` pattern: try every position
left to right and return group 1 of the leftmost match. -/
def reSearch (pre : List Char) : List Char → Option (List Char)
  | [] => matchHere pre []
  | c :: cs =>
    match matchHere pre (c :: cs) with
    | some g => some g
    | none => reSearch pre cs

/-- The literal prefix of a `literal(\S+)` pattern: the pattern text with the
five trailing characters `(\S+)` removed. -/
def patLit (pat : String) : List Char :=
  (pat.dropRight 5).data

/-- The regex table of the script: tool name, input filename, pattern. -/
def regexes : List (String × String × String) :=
  [("nf-core/hlatyping", "v_pipeline.txt", "(\\S+)"),
   ("Nextflow", "v_nextflow.txt", "(\\S+)"),
   ("Samtools", "v_samtools.txt", "samtools (\\S+)"),
   ("Yara", "v_yara.txt", "yara_mapper version: (\\S+)"),
   ("Optitype", "v_optitype.txt", "Version: (\\S+)"),
   ("MultiQC", "v_multiqc.txt", "multiqc, version (\\S+)")]

/-- The placeholder markup the script assigns to every tool up front
(the value of the Python literal; `\"` escapes a double quote). -/
def NA : String := "<span style=\"color:#999999;\">N/A</span>"

/-- Ordered-dictionary lookup (first binding of the key wins). -/
def odGet (m : List (String × String)) (k : String) : Option String :=
  match m with
  | [] => none
  | (k0, v0) :: rest => if k0 = k then some v0 else odGet rest k

/-- Ordered-dictionary assignment: overwrite the first binding of the key in
place, or append a fresh binding at the end (Python `d[k] = v`). -/
def odSet (m : List (String × String)) (k : String) (v : String) : List (String × String) :=
  match m with
  | [] => [(k, v)]
  | (k0, v0) :: rest => if k0 = k then (k, v) :: rest else (k0, v0) :: odSet rest k v

/-- The key sequence of the ordered dictionary, in insertion order. -/
def odKeys (m : List (String × String)) : List String :=
  m.map (fun kv => kv.1)

/-- `results` right after its six placeholder assignments. -/
def results0 : List (String × String) :=
  [("nf-core/hlatyping", NA), ("Nextflow", NA), ("Samtools", NA),
   ("Yara", NA), ("Optitype", NA), ("MultiQC", NA)]

/-- One iteration of the extraction loop: open the tool's file (failing like
`open` when it is absent), read it, search the pattern, and on a match
overwrite the tool's entry with `"v" + group 1`. -/
def step (fs : String → Option String) (m : List (String × String))
    (e : String × String × String) : Except String (List (String × String)) :=
  match fs e.2.1 with
  | none => Except.error e.2.1
  | some contents =>
    match reSearch (patLit e.2.2) contents.data with
    | some g => Except.ok (odSet m e.1 ("v" ++ String.mk g))
    | none => Except.ok m

/-- The extraction loop over the regex table. -/
def extract (fs : String → Option String) :
    List (String × String × String) → List (String × String) →
    Except String (List (String × String))
  | [], m => Except.ok m
  | e :: es, m =>
    match step fs m e with
    | Except.error msg => Except.error msg
    | Except.ok m2 => extract fs es m2

/-- The falsy-entry removal loop: an entry survives iff its value is truthy,
i.e. a non-empty string.  (When nothing is falsy — proved below — the
Python loop deletes nothing and this filter is the identity.) -/
def removeFalsy (m : List (String × String)) : List (String × String) :=
  m.filter (fun kv => kv.2 ≠ "")

/-- One `<dt>/<dd>` line of the HTML definition list, as formatted by the
print loop (without the trailing newline `print` adds). -/
def dtLine (kv : String × String) : String :=
  "        <dt>" ++ kv.1 ++ "</dt><dd><samp>" ++ kv.2 ++ "</samp></dd>"

/-- What the `<dt>/<dd>` print loop emits: one formatted line plus newline
per entry, in mapping order. -/
def dtBlock : List (String × String) → String
  | [] => ""
  | kv :: rest => dtLine kv ++ "\n" ++ dtBlock rest

/-- The triple-quoted YAML header literal (starts and ends with a newline). -/
def yamlHeaderLit : String :=
  "\nid: \x27software_versions\x27\nsection_name: \x27nf-core/hlatyping Software Versions\x27\nsection_href: \x27https://github.com/nf-core/hlatyping\x27\nplot_type: \x27html\x27\ndescription: \x27are collected at run time from the software output.\x27\ndata: |\n    <dl class=\"dl-horizontal\">\n"

/-- Everything printed to stdout: the header literal plus the newline `print`
appends, the definition-list lines, and the closing `</dl>` line. -/
def stdoutOf (m : List (String × String)) : String :=
  yamlHeaderLit ++ "\n" ++ dtBlock m ++ "    </dl>" ++ "\n"

/-- One line of `software_versions.csv` (without its trailing newline). -/
def csvLine (kv : String × String) : String :=
  kv.1 ++ "\t" ++ kv.2

/-- The full contents written to `software_versions.csv`: one tab-separated
newline-terminated line per entry, in mapping order. -/
def csvContent : List (String × String) → String
  | [] => ""
  | kv :: rest => csvLine kv ++ "\n" ++ csvContent rest

/-- The contents of `software_versions.csv` after the run, as a function of
whatever the file held before: mode `"w"` truncates, so the previous
contents are discarded entirely. -/
def csvAfter (_prev : String) (m : List (String × String)) : String :=
  csvContent m

/-- The whole script, from a working directory to (stdout, csv file bytes);
a missing input file aborts the run before either output is produced. -/
def run (fs : String → Option String) : Except String (String × String) :=
  match extract fs regexes results0 with
  | Except.error msg => Except.error msg
  | Except.ok m =>
    Except.ok (stdoutOf (removeFalsy m), csvContent (removeFalsy m))

/-- Decompose a character stream into its newline-separated lines: each
`'\n'` terminates a line; a non-empty tail after the last `'\n'` forms a
final line.  Used to state "one line per entry" properties of the outputs. -/
def splitNL : List Char → List (List Char)
  | [] => []
  | c :: cs =>
    if c = '\n' then [] :: splitNL cs
    else
      match splitNL cs with
      | [] => [[c]]
      | l :: ls => (c :: l) :: ls

/-- The declaration order of the six tools. -/
def toolNames : List String :=
  ["nf-core/hlatyping", "Nextflow", "Samtools", "Yara", "Optitype", "MultiQC"]

/-- Concatenation of newline-terminated lines (used to restate the concrete
output strings line by line). -/
def joinLines : List (List Char) → List Char
  | [] => []
  | l :: ls => l ++ '\n' :: joinLines ls

/-- The lines of the fixed YAML header as printed: the blank line from the
literal's leading newline, the seven content lines, and the blank line from
the extra newline `print` appends (spec-side restatement, compared below
with the header string the script prints). -/
def yamlHeaderLines : List (List Char) :=
  [[], "id: \x27software_versions\x27".data,
   "section_name: \x27nf-core/hlatyping Software Versions\x27".data,
   "section_href: \x27https://github.com/nf-core/hlatyping\x27".data,
   "plot_type: \x27html\x27".data,
   "description: \x27are collected at run time from the software output.\x27".data,
   "data: |".data,
   "    <dl class=\"dl-horizontal\">".data, []]

/-- The example working directory from the spec: `v_samtools.txt` holds
"samtools 1.9\n" and every other file is present but empty. -/
def fsEx : String → Option String :=
  fun n => if n = "v_samtools.txt" then some "samtools 1.9\n" else some ""

/-- The mapping the spec's example should produce: Samtools v1.9, every
other tool the placeholder. -/
def mEx : List (String × String) :=
  [("nf-core/hlatyping", NA), ("Nextflow", NA), ("Samtools", "v1.9"),
   ("Yara", NA), ("Optitype", NA), ("MultiQC", NA)]

/-! ### Ordered-dictionary lemmas -/

theorem odGet_odSet_self (m : List (String × String)) (k v : String) :
    odGet (odSet m k v) k = some v := by
  induction m with
  | nil => simp [odSet, odGet]
  | cons kv rest ih =>
    obtain ⟨k0, v0⟩ := kv
    by_cases h : k0 = k
    · simp [odSet, odGet, h]
    · simp [odSet, odGet, h, ih]

theorem odGet_odSet_ne (m : List (String × String)) (k v k' : String) (hne : k' ≠ k) :
    odGet (odSet m k v) k' = odGet m k' := by
  induction m with
  | nil => simp [odSet, odGet, Ne.symm hne]
  | cons kv rest ih =>
    obtain ⟨k0, v0⟩ := kv
    by_cases h : k0 = k
    · subst h
      simp [odSet, odGet, Ne.symm hne]
    · simp only [odSet, if_neg h, odGet]
      by_cases h' : k0 = k'
      · simp [h']
      · simp [h', ih]

theorem odKeys_odSet_mem (m : List (String × String)) (k v : String)
    (hk : k ∈ odKeys m) : odKeys (odSet m k v) = odKeys m := by
  induction m with
  | nil => simp [odKeys] at hk
  | cons kv rest ih =>
    obtain ⟨k0, v0⟩ := kv
    by_cases h : k0 = k
    · simp [odSet, odKeys, h]
    · simp only [odKeys, List.map_cons, List.mem_cons] at hk
      rcases hk with hk | hk
      · exact absurd hk.symm h
      · have := ih (by simpa [odKeys] using hk)
        simp only [odKeys] at this
        simp [odSet, odKeys, h, this]

theorem mem_odSet (m : List (String × String)) (k v : String)
    (kv : String × String) (h : kv ∈ odSet m k v) : kv ∈ m ∨ kv = (k, v) := by
  induction m with
  | nil =>
    simp only [odSet] at h
    rcases List.mem_cons.mp h with h | h
    · exact Or.inr h
    · simp at h
  | cons kv0 rest ih =>
    obtain ⟨k0, v0⟩ := kv0
    by_cases hk : k0 = k
    · simp only [odSet, if_pos hk] at h
      rcases List.mem_cons.mp h with h | h
      · exact Or.inr h
      · exact Or.inl (List.mem_cons_of_mem _ h)
    · simp only [odSet, if_neg hk] at h
      rcases List.mem_cons.mp h with h | h
      · exact Or.inl (by simp [h])
      · rcases ih h with h' | h'
        · exact Or.inl (List.mem_cons_of_mem _ h')
        · exact Or.inr h'

/-! ### Soundness of the `\S+` capture: no whitespace in a returned group -/

theorem takeNonSpace_sound (s : List Char) :
    ∀ c ∈ takeNonSpace s, isPySpace c = false := by
  induction s with
  | nil => simp [takeNonSpace]
  | cons c0 cs ih =>
    cases hsp : isPySpace c0 with
    | true => simp [takeNonSpace, hsp]
    | false =>
      have hrw : takeNonSpace (c0 :: cs) = c0 :: takeNonSpace cs := by
        simp [takeNonSpace, hsp]
      rw [hrw]
      intro c hc
      rcases List.mem_cons.mp hc with hc | hc
      · rw [hc]; exact hsp
      · exact ih c hc

theorem matchHere_sound (pre s g : List Char) (h : matchHere pre s = some g) :
    g ≠ [] ∧ ∀ c ∈ g, isPySpace c = false := by
  rcases hs : stripLit pre s with _ | rest
  · simp [matchHere, hs] at h
  · rcases rest with _ | ⟨c0, cs⟩
    · simp [matchHere, hs] at h
    · cases hsp : isPySpace c0 with
      | true => simp [matchHere, hs, hsp] at h
      | false =>
        simp only [matchHere, hs, hsp, Bool.false_eq_true, if_false,
          Option.some.injEq] at h
        subst h
        refine ⟨by simp, ?_⟩
        intro c hc
        rcases List.mem_cons.mp hc with hc | hc
        · rw [hc]; exact hsp
        · exact takeNonSpace_sound cs c hc

theorem reSearch_sound (pre s g : List Char) (h : reSearch pre s = some g) :
    g ≠ [] ∧ ∀ c ∈ g, isPySpace c = false := by
  induction s with
  | nil =>
    simp only [reSearch] at h
    exact matchHere_sound pre [] g h
  | cons c0 cs ih =>
    rcases hm : matchHere pre (c0 :: cs) with _ | g'
    · simp only [reSearch, hm] at h
      exact ih h
    · simp only [reSearch, hm, Option.some.injEq] at h
      subst h
      exact matchHere_sound pre (c0 :: cs) g' hm

/-! ### Step and extraction-loop lemmas -/

theorem step_ok_cases (fs : String → Option String) (m : List (String × String))
    (e : String × String × String) (m2 : List (String × String))
    (h : step fs m e = Except.ok m2) :
    m2 = m ∨ ∃ c g, fs e.2.1 = some c ∧ reSearch (patLit e.2.2) c.data = some g ∧
      m2 = odSet m e.1 ("v" ++ String.mk g) := by
  rcases hf : fs e.2.1 with _ | contents
  · simp [step, hf] at h
  · rcases hr : reSearch (patLit e.2.2) contents.data with _ | g
    · simp only [step, hf, hr, Except.ok.injEq] at h
      subst h
      exact Or.inl rfl
    · simp only [step, hf, hr, Except.ok.injEq] at h
      subst h
      exact Or.inr ⟨contents, g, rfl, hr, rfl⟩

/-! ### Line-decomposition lemmas -/

theorem splitNL_line (l rest : List Char) (h : '\n' ∉ l) :
    splitNL (l ++ '\n' :: rest) = l :: splitNL rest := by
  induction l with
  | nil => simp [splitNL]
  | cons c cs ih =>
    have hc : ¬ c = '\n' := fun hEq => h (by rw [hEq]; exact List.mem_cons_self _ _)
    have hcs : '\n' ∉ cs := fun hm => h (List.mem_cons_of_mem _ hm)
    simp only [List.cons_append, splitNL, if_neg hc, List.append_eq, ih hcs]

theorem splitNL_joinLines (ls : List (List Char)) (rest : List Char)
    (h : ∀ l ∈ ls, '\n' ∉ l) :
    splitNL (joinLines ls ++ rest) = ls ++ splitNL rest := by
  induction ls with
  | nil => rfl
  | cons l ls ih =>
    show splitNL ((l ++ '\n' :: joinLines ls) ++ rest) = (l :: ls) ++ splitNL rest
    rw [List.append_assoc, List.cons_append,
        splitNL_line l _ (h l (List.mem_cons_self l ls)),
        ih (fun l' hl' => h l' (List.mem_cons_of_mem _ hl'))]
    rfl

theorem splitNL_dtBlock (m : List (String × String)) (rest : List Char)
    (h : ∀ kv ∈ m, '\n' ∉ (dtLine kv).data) :
    splitNL ((dtBlock m).data ++ rest) =
      m.map (fun kv => (dtLine kv).data) ++ splitNL rest := by
  induction m with
  | nil => rfl
  | cons kv t ih =>
    have hdata : (dtBlock (kv :: t)).data
        = (dtLine kv).data ++ '\n' :: (dtBlock t).data := by
      show (dtLine kv ++ "\n" ++ dtBlock t).data = _
      rw [String.data_append, String.data_append, List.append_assoc]
      rfl
    rw [hdata, List.append_assoc, List.cons_append,
        splitNL_line _ _ (h kv (List.mem_cons_self kv t)),
        ih (fun kv' hkv' => h kv' (List.mem_cons_of_mem _ hkv'))]
    rfl

theorem splitNL_csvContent (m : List (String × String)) (rest : List Char)
    (h : ∀ kv ∈ m, '\n' ∉ (csvLine kv).data) :
    splitNL ((csvContent m).data ++ rest) =
      m.map (fun kv => (csvLine kv).data) ++ splitNL rest := by
  induction m with
  | nil => rfl
  | cons kv t ih =>
    have hdata : (csvContent (kv :: t)).data
        = (csvLine kv).data ++ '\n' :: (csvContent t).data := by
      show (csvLine kv ++ "\n" ++ csvContent t).data = _
      rw [String.data_append, String.data_append, List.append_assoc]
      rfl
    rw [hdata, List.append_assoc, List.cons_append,
        splitNL_line _ _ (h kv (List.mem_cons_self kv t)),
        ih (fun kv' hkv' => h kv' (List.mem_cons_of_mem _ hkv'))]
    rfl

theorem takeWhile_stop (p : Char → Bool) (l t : List Char) (x : Char)
    (hl : ∀ c ∈ l, p c = true) (hx : p x = false) :
    (l ++ x :: t).takeWhile p = l := by
  induction l with
  | nil => simp [List.takeWhile_cons, hx]
  | cons c cs ih =>
    have hc : p c = true := hl c (List.mem_cons_self _ _)
    simp [List.takeWhile_cons, hc, hx,
      ih (fun c' hc' => hl c' (List.mem_cons_of_mem _ hc'))]

theorem step_frame (fs : String → Option String) (m : List (String × String))
    (e : String × String × String) (m2 : List (String × String))
    (h : step fs m e = Except.ok m2) (k' : String) (hne : k' ≠ e.1) :
    odGet m2 k' = odGet m k' := by
  rcases step_ok_cases fs m e m2 h with h' | ⟨c, g, _, _, h'⟩
  · rw [h']
  · rw [h']
    exact odGet_odSet_ne m e.1 _ k' hne

theorem step_keys (fs : String → Option String) (m : List (String × String))
    (e : String × String × String) (m2 : List (String × String))
    (h : step fs m e = Except.ok m2) (hk : e.1 ∈ odKeys m) :
    odKeys m2 = odKeys m := by
  rcases step_ok_cases fs m e m2 h with h' | ⟨c, g, _, _, h'⟩
  · rw [h']
  · rw [h']
    exact odKeys_odSet_mem m e.1 _ hk

theorem extract_frame (fs : String → Option String) :
    ∀ (es : List (String × String × String)) (m m' : List (String × String)) (k' : String),
      (∀ e ∈ es, e.1 ≠ k') → extract fs es m = Except.ok m' →
      odGet m' k' = odGet m k' := by
  intro es
  induction es with
  | nil =>
    intro m m' k' _ h
    simp only [extract, Except.ok.injEq] at h
    subst h; rfl
  | cons e rest ih =>
    intro m m' k' hes h
    rcases hst : step fs m e with msg | m2
    · simp [extract, hst] at h
    · simp only [extract, hst] at h
      have h1 := ih m2 m' k' (fun e' he' => hes e' (List.mem_cons_of_mem _ he')) h
      rw [h1]
      exact step_frame fs m e m2 hst k' (fun hEq => hes e (List.mem_cons_self e rest) hEq.symm)

theorem extract_keys (fs : String → Option String) :
    ∀ (es : List (String × String × String)) (m m' : List (String × String)),
      (∀ e ∈ es, e.1 ∈ odKeys m) → extract fs es m = Except.ok m' →
      odKeys m' = odKeys m := by
  intro es
  induction es with
  | nil =>
    intro m m' _ h
    simp only [extract, Except.ok.injEq] at h
    subst h; rfl
  | cons e rest ih =>
    intro m m' hes h
    rcases hst : step fs m e with msg | m2
    · simp [extract, hst] at h
    · simp only [extract, hst] at h
      have hk2 : odKeys m2 = odKeys m :=
        step_keys fs m e m2 hst (hes e (List.mem_cons_self e rest))
      have h1 := ih m2 m' (fun e' he' => by
        rw [hk2]; exact hes e' (List.mem_cons_of_mem _ he')) h
      rw [h1, hk2]

theorem extract_inv (fs : String → Option String) (p : String → Prop)
    (hins : ∀ pre s g, reSearch pre s = some g → p ("v" ++ String.mk g)) :
    ∀ (es : List (String × String × String)) (m m' : List (String × String)),
      (∀ kv ∈ m, p kv.2) → extract fs es m = Except.ok m' →
      ∀ kv ∈ m', p kv.2 := by
  intro es
  induction es with
  | nil =>
    intro m m' hm h
    simp only [extract, Except.ok.injEq] at h
    subst h; exact hm
  | cons e rest ih =>
    intro m m' hm h
    rcases hst : step fs m e with msg | m2
    · simp [extract, hst] at h
    · simp only [extract, hst] at h
      refine ih m2 m' ?_ h
      intro kv hkv
      rcases step_ok_cases fs m e m2 hst with h' | ⟨c, g, _, hre, h'⟩
      · exact hm kv (h' ▸ hkv)
      · subst h'
        rcases mem_odSet m e.1 _ kv hkv with h'' | h''
        · exact hm kv h''
        · rw [h'']
          exact hins _ _ _ hre

theorem extract_lookup (fs : String → Option String) :
    ∀ (es : List (String × String × String)) (m m' : List (String × String))
      (k fn pat c : String),
      (es.map (fun e => e.1)).Nodup → (k, fn, pat) ∈ es → fs fn = some c →
      extract fs es m = Except.ok m' →
      odGet m' k = (match reSearch (patLit pat) c.data with
                    | some g => some ("v" ++ String.mk g)
                    | none => odGet m k) := by
  intro es
  induction es with
  | nil =>
    intro m m' k fn pat c _ hmem
    simp at hmem
  | cons e rest ih =>
    intro m m' k fn pat c hnd hmem hfs h
    rcases hst : step fs m e with msg | m2
    · simp [extract, hst] at h
    · simp only [extract, hst] at h
      have hnd' : (e.1 :: rest.map (fun e => e.1)).Nodup := by
        rw [List.map_cons] at hnd; exact hnd
      rcases List.mem_cons.mp hmem with hmem | hmem
      · subst hmem
        have hknot : k ∉ rest.map (fun e => e.1) := (List.nodup_cons.mp hnd').1
        have hknotin : ∀ e' ∈ rest, e'.1 ≠ k := by
          intro e' he' hEq
          exact hknot (hEq ▸ List.mem_map_of_mem _ he')
        have hframe := extract_frame fs rest m2 m' k hknotin h
        rw [hframe]
        rcases hre : reSearch (patLit pat) c.data with _ | g
        · have hm2 : m2 = m := by
            have hcomp : step fs m (k, fn, pat) = Except.ok m := by
              simp [step, hfs, hre]
            rw [hcomp] at hst
            injection hst with hh
            exact hh.symm
          rw [hm2]
        · have hm2 : m2 = odSet m k ("v" ++ String.mk g) := by
            have hcomp : step fs m (k, fn, pat) =
                Except.ok (odSet m k ("v" ++ String.mk g)) := by
              simp [step, hfs, hre]
            rw [hcomp] at hst
            injection hst with hh
            exact hh.symm
          rw [hm2]
          exact odGet_odSet_self m k _
      · have hnotin : e.1 ∉ rest.map (fun e => e.1) := (List.nodup_cons.mp hnd').1
        have hne : e.1 ≠ k := by
          intro hEq
          exact hnotin (by rw [hEq]; exact List.mem_map_of_mem _ hmem)
        have ihres := ih m2 m' k fn pat c (List.Nodup.of_cons hnd') hmem hfs h
        rw [ihres]
        rcases hre : reSearch (patLit pat) c.data with _ | g
        · exact step_frame fs m e m2 hst k (Ne.symm hne)
        · rfl

theorem extract_missing (fs : String → Option String) :
    ∀ (es : List (String × String × String)) (m : List (String × String)),
      (∃ e ∈ es, fs e.2.1 = none) →
      ∃ msg, extract fs es m = Except.error msg := by
  intro es
  induction es with
  | nil => intro m h; simp at h
  | cons e rest ih =>
    intro m h
    rcases hf : fs e.2.1 with _ | contents
    · exact ⟨e.2.1, by simp [extract, step, hf]⟩
    · rcases h with ⟨e', he', hnone⟩
      rcases List.mem_cons.mp he' with heq | he'
      · rw [heq, hf] at hnone
        exact absurd hnone (by simp)
      · rcases hst : step fs m e with msg | m2
        · exact ⟨msg, by simp [extract, hst]⟩
        · rcases ih m2 ⟨e', he', hnone⟩ with ⟨msg, hmsg⟩
          exact ⟨msg, by simp [extract, hst, hmsg]⟩

theorem extract_congr (fs1 fs2 : String → Option String) :
    ∀ (es : List (String × String × String)) (m : List (String × String)),
      (∀ e ∈ es, fs1 e.2.1 = fs2 e.2.1) →
      extract fs1 es m = extract fs2 es m := by
  intro es
  induction es with
  | nil => intro m _; rfl
  | cons e rest ih =>
    intro m h
    have hstep : step fs1 m e = step fs2 m e := by
      simp only [step, h e (List.mem_cons_self e rest)]
    simp only [extract, hstep]
    rcases hs2 : step fs2 m e with msg | m2
    · rfl
    · exact ih m2 (fun e' he' => h e' (List.mem_cons_of_mem _ he'))

/-! ### Invariants of the extracted mapping -/

theorem vstring_data (g : List Char) : ("v" ++ String.mk g).data = 'v' :: g := by
  rw [String.data_append]; rfl

theorem extract_results0_values (fs : String → Option String)
    (es : List (String × String × String)) (m' : List (String × String))
    (hex : extract fs es results0 = Except.ok m') :
    ∀ kv ∈ m', kv.2 ≠ "" ∧ '\n' ∉ kv.2.data ∧ '\t' ∉ kv.2.data := by
  refine extract_inv fs (fun v => v ≠ "" ∧ '\n' ∉ v.data ∧ '\t' ∉ v.data)
    ?_ es results0 m' ?_ hex
  · intro pre s g hre
    have hdata := vstring_data g
    refine ⟨?_, ?_, ?_⟩
    · intro hEq
      rw [hEq] at hdata
      simp at hdata
    · intro hmem
      rw [hdata] at hmem
      rcases List.mem_cons.mp hmem with hm | hm
      · exact absurd hm (by decide)
      · exact absurd ((reSearch_sound pre s g hre).2 '\n' hm) (by decide)
    · intro hmem
      rw [hdata] at hmem
      rcases List.mem_cons.mp hmem with hm | hm
      · exact absurd hm (by decide)
      · exact absurd ((reSearch_sound pre s g hre).2 '\t' hm) (by decide)
  · decide

theorem extract_results0_shape (fs : String → Option String)
    (es : List (String × String × String)) (m' : List (String × String))
    (hex : extract fs es results0 = Except.ok m') :
    ∀ kv ∈ m', kv.2 = NA ∨ ∃ t, kv.2 = "v" ++ t := by
  refine extract_inv fs (fun v => v = NA ∨ ∃ t, v = "v" ++ t) ?_ es results0 m' ?_ hex
  · intro pre s g _
    exact Or.inr ⟨String.mk g, rfl⟩
  · intro kv hkv
    fin_cases hkv <;> exact Or.inl rfl

theorem extract_results0_keys (fs : String → Option String)
    (es : List (String × String × String)) (m' : List (String × String))
    (hsub : ∀ e ∈ es, e.1 ∈ odKeys results0)
    (hex : extract fs es results0 = Except.ok m') :
    odKeys m' = toolNames := by
  rw [extract_keys fs es results0 m' hsub hex]
  rfl

theorem removeFalsy_eq_self (m : List (String × String))
    (h : ∀ kv ∈ m, kv.2 ≠ "") : removeFalsy m = m := by
  unfold removeFalsy
  rw [List.filter_eq_self]
  intro kv hkv
  simpa using h kv hkv

theorem key_charFacts (m' : List (String × String)) (kv : String × String)
    (hkeys : odKeys m' = toolNames) (hkv : kv ∈ m') :
    '\n' ∉ kv.1.data ∧ '\t' ∉ kv.1.data ∧ '<' ∉ kv.1.data := by
  have hk : kv.1 ∈ toolNames := by
    rw [← hkeys]; exact List.mem_map_of_mem _ hkv
  exact (by decide :
    ∀ k ∈ toolNames, '\n' ∉ k.data ∧ '\t' ∉ k.data ∧ '<' ∉ k.data) kv.1 hk

theorem dtLine_no_nl (kv : String × String)
    (h1 : '\n' ∉ kv.1.data) (h2 : '\n' ∉ kv.2.data) :
    '\n' ∉ (dtLine kv).data := by
  unfold dtLine
  simp only [String.data_append]
  intro hmem
  simp only [List.mem_append] at hmem
  rcases hmem with (((hm | hm) | hm) | hm) | hm
  · exact absurd hm (by decide)
  · exact h1 hm
  · exact absurd hm (by decide)
  · exact h2 hm
  · exact absurd hm (by decide)

theorem csvLine_no_nl (kv : String × String)
    (h1 : '\n' ∉ kv.1.data) (h2 : '\n' ∉ kv.2.data) :
    '\n' ∉ (csvLine kv).data := by
  unfold csvLine
  simp only [String.data_append]
  intro hmem
  simp only [List.mem_append] at hmem
  rcases hmem with (hm | hm) | hm
  · exact h1 hm
  · exact absurd hm (by decide)
  · exact h2 hm

theorem csvLine_toolCol (kv : String × String) (h : '\t' ∉ kv.1.data) :
    (csvLine kv).data.takeWhile (fun c => !(c = '\t')) = kv.1.data := by
  have hdata : (csvLine kv).data = kv.1.data ++ '\t' :: kv.2.data := by
    unfold csvLine
    simp only [String.data_append, List.append_assoc]
    rfl
  rw [hdata]
  refine takeWhile_stop _ _ _ _ ?_ (by decide)
  intro c hc
  have hne : c ≠ '\t' := fun hEq => h (hEq ▸ hc)
  rw [decide_eq_false hne]
  rfl

theorem dtLine_toolCol (kv : String × String) (h : '<' ∉ kv.1.data) :
    ((dtLine kv).data.drop 12).takeWhile (fun c => !(c = '<')) = kv.1.data := by
  have hdata : (dtLine kv).data
      = "        <dt>".data ++
        (kv.1.data ++ '<' ::
          ("/dt><dd><samp>".data ++ (kv.2.data ++ "</samp></dd>".data))) := by
    unfold dtLine
    simp only [String.data_append, List.append_assoc]
    rfl
  rw [hdata, List.drop_left' (by decide : ("        <dt>".data).length = 12)]
  refine takeWhile_stop _ _ _ _ ?_ (by decide)
  intro c hc
  have hne : c ≠ '<' := fun hEq => h (hEq ▸ hc)
  rw [decide_eq_false hne]
  rfl

/-! ### Claim theorems -/

/-- C1: for every tool in the regex table, if the contents of that tool's
input file match the tool's pattern, then after the extraction pass the
mapping's value for that tool is "v" followed by capture group 1 of the
leftmost match in the contents. -/
theorem C1_match_sets_version (fs : String → Option String)
    (k fn pat : String) (hmem : (k, fn, pat) ∈ regexes)
    (c : String) (g : List Char) (m' : List (String × String))
    (hfs : fs fn = some c)
    (hre : reSearch (patLit pat) c.data = some g)
    (hex : extract fs regexes results0 = Except.ok m') :
    odGet m' k = some ("v" ++ String.mk g) := by
  have h := extract_lookup fs regexes results0 m' k fn pat c (by decide) hmem hfs hex
  rw [hre] at h
  exact h

theorem C1_witness : odGet mEx "Samtools" = some ("v" ++ String.mk "1.9".data) :=
  C1_match_sets_version fsEx "Samtools" "v_samtools.txt" "samtools (\\S+)"
    (by decide) "samtools 1.9\n" "1.9".data mEx rfl (by decide) rfl

/-- C2: for every tool in the regex table, if the contents of that tool's
input file contain no match for the pattern, the mapping's value for that
tool after the extraction pass is still the initial placeholder markup. -/
theorem C2_no_match_keeps_placeholder (fs : String → Option String)
    (k fn pat : String) (hmem : (k, fn, pat) ∈ regexes)
    (c : String) (m' : List (String × String))
    (hfs : fs fn = some c)
    (hre : reSearch (patLit pat) c.data = none)
    (hex : extract fs regexes results0 = Except.ok m') :
    odGet m' k = some NA := by
  have h := extract_lookup fs regexes results0 m' k fn pat c (by decide) hmem hfs hex
  rw [hre] at h
  rw [h]
  have hk : k ∈ toolNames := by
    have hmap := List.mem_map_of_mem (fun e => e.1) hmem
    have h2 : regexes.map (fun e => e.1) = toolNames := by decide
    rw [h2] at hmap
    exact hmap
  exact (by decide : ∀ k0 ∈ toolNames, odGet results0 k0 = some NA) k hk

theorem C2_witness : odGet results0 "Samtools" = some NA :=
  C2_no_match_keeps_placeholder (fun _ => some "") "Samtools" "v_samtools.txt"
    "samtools (\\S+)" (by decide) "" results0 rfl (by decide) rfl

/-- C3: if any of the six expected input files is absent from the working
directory, the run fails with a file-not-found error before producing
either output; no placeholder fallback happens for that tool. -/
theorem C3_missing_file_fails (fs : String → Option String)
    (hmiss : ∃ e ∈ regexes, fs e.2.1 = none) :
    ∃ msg, run fs = Except.error msg := by
  rcases extract_missing fs regexes results0 hmiss with ⟨msg, hmsg⟩
  exact ⟨msg, by simp [run, hmsg]⟩

theorem C3_witness : ∃ msg, run (fun _ => none) = Except.error msg :=
  C3_missing_file_fails (fun _ => none)
    ⟨("nf-core/hlatyping", "v_pipeline.txt", "(\\S+)"), by decide, rfl⟩

/-- C4: for any input contents and any iteration order over the regex table
(any list of entries drawn from it), the mapping both output loops consume
lists the six tools in their fixed declaration order; consequently the tool
column of the csv lines and of the `<dt>` lines, read top to bottom, is
exactly that order. -/
theorem C4_output_order_fixed (fs : String → Option String)
    (es : List (String × String × String)) (m' : List (String × String))
    (hsub : ∀ e ∈ es, e ∈ regexes)
    (hex : extract fs es results0 = Except.ok m') :
    odKeys (removeFalsy m') = toolNames ∧
    (removeFalsy m').map
        (fun kv => (csvLine kv).data.takeWhile (fun c => !(c = '\t'))) =
      toolNames.map String.data ∧
    (removeFalsy m').map
        (fun kv => ((dtLine kv).data.drop 12).takeWhile (fun c => !(c = '<'))) =
      toolNames.map String.data := by
  have hvals := extract_results0_values fs es m' hex
  have hrm : removeFalsy m' = m' :=
    removeFalsy_eq_self m' (fun kv hkv => (hvals kv hkv).1)
  have hkeys : odKeys m' = toolNames :=
    extract_results0_keys fs es m'
      (fun e he => (by decide : ∀ e0 ∈ regexes, e0.1 ∈ odKeys results0) e (hsub e he))
      hex
  refine ⟨by rw [hrm, hkeys], ?_, ?_⟩
  · rw [hrm]
    have hpt : ∀ kv ∈ m',
        (csvLine kv).data.takeWhile (fun c => !(c = '\t')) = kv.1.data :=
      fun kv hkv => csvLine_toolCol kv (key_charFacts m' kv hkeys hkv).2.1
    rw [List.map_congr_left hpt, ← hkeys]
    simp [odKeys, List.map_map, Function.comp]
  · rw [hrm]
    have hpt : ∀ kv ∈ m',
        ((dtLine kv).data.drop 12).takeWhile (fun c => !(c = '<')) = kv.1.data :=
      fun kv hkv => dtLine_toolCol kv (key_charFacts m' kv hkeys hkv).2.2
    rw [List.map_congr_left hpt, ← hkeys]
    simp [odKeys, List.map_map, Function.comp]

theorem C4_witness :
    odKeys (removeFalsy results0) = toolNames ∧
    (removeFalsy results0).map
        (fun kv => (csvLine kv).data.takeWhile (fun c => !(c = '\t'))) =
      toolNames.map String.data ∧
    (removeFalsy results0).map
        (fun kv => ((dtLine kv).data.drop 12).takeWhile (fun c => !(c = '<'))) =
      toolNames.map String.data :=
  C4_output_order_fixed (fun _ => some "") regexes.reverse results0 (by decide) rfl

/-- C5: the csv file contents decompose into exactly one tab-separated,
newline-terminated line per surviving entry, in order, with no header line;
and whatever the file held before is discarded (mode "w" truncates). -/
theorem C5_csv_shape (fs : String → Option String) (m' : List (String × String))
    (hex : extract fs regexes results0 = Except.ok m') :
    splitNL (csvContent (removeFalsy m')).data =
      (removeFalsy m').map (fun kv => (csvLine kv).data) ∧
    ∀ prev, csvAfter prev (removeFalsy m') = csvContent (removeFalsy m') := by
  have hvals := extract_results0_values fs regexes m' hex
  have hkeys : odKeys m' = toolNames :=
    extract_results0_keys fs regexes m' (by decide) hex
  have hrm : removeFalsy m' = m' :=
    removeFalsy_eq_self m' (fun kv hkv => (hvals kv hkv).1)
  constructor
  · rw [hrm]
    have h0 := splitNL_csvContent m' [] (fun kv hkv =>
      csvLine_no_nl kv (key_charFacts m' kv hkeys hkv).1 (hvals kv hkv).2.1)
    rw [List.append_nil, (show splitNL ([] : List Char) = [] from rfl),
      List.append_nil] at h0
    exact h0
  · intro prev; rfl

theorem C5_witness :
    splitNL (csvContent (removeFalsy mEx)).data =
      (removeFalsy mEx).map (fun kv => (csvLine kv).data) ∧
    csvAfter "stale previous contents" (removeFalsy mEx) = csvContent (removeFalsy mEx) :=
  ⟨(C5_csv_shape fsEx mEx rfl).1,
   (C5_csv_shape fsEx mEx rfl).2 "stale previous contents"⟩

/-- C6: after the extraction pass every value is a non-empty string (the
placeholder or a string beginning with "v"), so the falsy-entry removal
loop deletes nothing (it never removes from the mapping while iterating)
and all six tools survive into both outputs. -/
theorem C6_removal_dead (fs : String → Option String) (m' : List (String × String))
    (hex : extract fs regexes results0 = Except.ok m') :
    (∀ kv ∈ m', kv.2 ≠ "" ∧ (kv.2 = NA ∨ ∃ t, kv.2 = "v" ++ t)) ∧
    removeFalsy m' = m' ∧
    odKeys (removeFalsy m') = toolNames := by
  have hvals := extract_results0_values fs regexes m' hex
  have hshape := extract_results0_shape fs regexes m' hex
  have hkeys : odKeys m' = toolNames :=
    extract_results0_keys fs regexes m' (by decide) hex
  have hrm : removeFalsy m' = m' :=
    removeFalsy_eq_self m' (fun kv hkv => (hvals kv hkv).1)
  exact ⟨fun kv hkv => ⟨(hvals kv hkv).1, hshape kv hkv⟩, hrm, by rw [hrm, hkeys]⟩

theorem C6_witness :
    (("Samtools", "v1.9").2 ≠ "" ∧
      (("Samtools", "v1.9").2 = NA ∨ ∃ t, ("Samtools", "v1.9").2 = "v" ++ t)) ∧
    removeFalsy mEx = mEx ∧
    odKeys (removeFalsy mEx) = toolNames :=
  ⟨(C6_removal_dead fsEx mEx rfl).1 ("Samtools", "v1.9") (by decide),
   (C6_removal_dead fsEx mEx rfl).2.1,
   (C6_removal_dead fsEx mEx rfl).2.2⟩

set_option maxRecDepth 8192 in
/-- C7: stdout decomposes line by line into the fixed YAML header (keys id,
section_name, section_href, plot_type, description, data), followed by
exactly one `<dt>tool</dt><dd><samp>value</samp></dd>` line per surviving
entry in insertion order, followed by the closing `</dl>` line. -/
theorem C7_stdout_shape (fs : String → Option String) (m' : List (String × String))
    (hex : extract fs regexes results0 = Except.ok m') :
    splitNL (stdoutOf (removeFalsy m')).data =
      (yamlHeaderLines ++ (removeFalsy m').map (fun kv => (dtLine kv).data))
        ++ ["    </dl>".data] := by
  have hvals := extract_results0_values fs regexes m' hex
  have hkeys : odKeys m' = toolNames :=
    extract_results0_keys fs regexes m' (by decide) hex
  have hrm : removeFalsy m' = m' :=
    removeFalsy_eq_self m' (fun kv hkv => (hvals kv hkv).1)
  rw [hrm]
  have hnl : ∀ kv ∈ m', '\n' ∉ (dtLine kv).data := fun kv hkv =>
    dtLine_no_nl kv (key_charFacts m' kv hkeys hkv).1 (hvals kv hkv).2.1
  have hstep1 : (stdoutOf m').data
      = joinLines yamlHeaderLines ++
        ((dtBlock m').data ++ ("    </dl>".data ++ "\n".data)) := by
    have hj : joinLines yamlHeaderLines = (yamlHeaderLit ++ "\n").data := by decide
    unfold stdoutOf
    rw [hj]
    simp only [String.data_append, List.append_assoc]
  rw [hstep1, splitNL_joinLines _ _ (by decide), splitNL_dtBlock m' _ hnl]
  rw [(show splitNL ("    </dl>".data ++ "\n".data) = ["    </dl>".data] by decide)]
  simp [List.append_assoc]

theorem C7_witness :
    splitNL (stdoutOf (removeFalsy mEx)).data =
      (yamlHeaderLines ++ (removeFalsy mEx).map (fun kv => (dtLine kv).data))
        ++ ["    </dl>".data] :=
  C7_stdout_shape fsEx mEx rfl

/-- C8: one iteration of the extraction loop changes at most its own tool's
entry (first conjunct); a run of the loop whose entries never name a key
leaves that key's value untouched (second conjunct) — so each entry is
written at initialization and overwritten at most once, by its own
iteration. -/
theorem C8_frame :
    (∀ (fs : String → Option String) (m : List (String × String))
       (e : String × String × String) (m2 : List (String × String)) (k' : String),
       step fs m e = Except.ok m2 → k' ≠ e.1 → odGet m2 k' = odGet m k') ∧
    (∀ (fs : String → Option String) (es : List (String × String × String))
       (m m' : List (String × String)) (k' : String),
       (∀ e ∈ es, e.1 ≠ k') → extract fs es m = Except.ok m' →
       odGet m' k' = odGet m k') :=
  ⟨fun fs m e m2 k' h hne => step_frame fs m e m2 h k' hne,
   fun fs es m m' k' hes h => extract_frame fs es m m' k' hes h⟩

theorem C8_witness : odGet mEx "Nextflow" = odGet results0 "Nextflow" :=
  C8_frame.1 (fun _ => some "samtools 1.9") results0
    ("Samtools", "v_samtools.txt", "samtools (\\S+)") mEx "Nextflow" rfl (by decide)

/-- C9: with `v_samtools.txt` containing "samtools 1.9\n" and every other
input file empty, the run succeeds, the Samtools entry is "v1.9" in the
mapping and in both outputs, and every other tool keeps the placeholder. -/
theorem C9_samtools_example :
    run fsEx = Except.ok (stdoutOf mEx, csvContent mEx) ∧
    odGet mEx "Samtools" = some "v1.9" ∧
    (mEx.filter (fun kv => !(kv.1 = "Samtools"))).map (fun kv => kv.2) =
      [NA, NA, NA, NA, NA] ∧
    "        <dt>Samtools</dt><dd><samp>v1.9</samp></dd>".data
      ∈ splitNL (stdoutOf mEx).data ∧
    "Samtools\tv1.9".data ∈ splitNL (csvContent mEx).data :=
  ⟨rfl, by decide, by decide, by decide, by decide⟩

/-- C10: the script is deterministic and reads nothing but the six input
files: two working directories that agree on the six filenames of the
regex table produce byte-identical stdout and csv contents. -/
theorem C10_deterministic (fs1 fs2 : String → Option String)
    (h : ∀ e ∈ regexes, fs1 e.2.1 = fs2 e.2.1) :
    run fs1 = run fs2 := by
  unfold run
  rw [extract_congr fs1 fs2 regexes results0 h]

theorem C10_witness :
    run (fun _ => some "") =
    run (fun n => if n = "software_versions.csv" then none else some "") :=
  C10_deterministic (fun _ => some "")
    (fun n => if n = "software_versions.csv" then none else some "") (by decide)
